import Mathlib

/-!
# sendmail: the delivery loop, the address validator and the transport session

A shallow embedding of `main.go` of `mikeunge/sendmail`:

* `isValidEmail`    : the regular expression of line 104, run by a derivative matcher;
* `emailSent`, `saveEmailStatus` : the two SQL statements over the `emails` table;
* `sendEmailWithTLS` : the SMTP exchange, as a trace of effects with Go's deferred calls;
* `processRecipient`, `loopFrom`, `mainLoop` : the body of the `for` loop of `main`.

Everything the program obtains from the outside world (whether a query, an insert or a
network step succeeds, what `rand.Intn(40)` returns) is read from an environment `Env`.
-/

namespace Sendmail

/-! ## Regular expressions: the fragment used by `emailRegex` -/

/-- One item of a bracket expression: the inclusive range `lo-hi`.  A single character
`c` inside the brackets is the range `c-c`. -/
structure ClassRange where
  lo : Char
  hi : Char
deriving DecidableEq, Repr

/-- Does the character lie in the range (comparison of code points, as RE2 does). -/
def ClassRange.contains (r : ClassRange) (c : Char) : Bool :=
  decide (r.lo.toNat ≤ c.toNat) && decide (c.toNat ≤ r.hi.toNat)

/-- Membership in a bracket expression `[...]`. -/
def inClass (rs : List ClassRange) (c : Char) : Bool :=
  rs.any (fun r => r.contains c)

/-- Regular expressions.  `fail` and `alt` do not occur in the pattern of the program; they
arise as derivatives. -/
inductive Regex where
  | fail : Regex
  | eps : Regex
  | cls : List ClassRange → Regex
  | cat : Regex → Regex → Regex
  | alt : Regex → Regex → Regex
  | star : Regex → Regex
deriving DecidableEq, Repr

namespace Regex

/-- The literal character `c`. -/
def lit (c : Char) : Regex := cls [⟨c, c⟩]

/-- The postfix operator `+` : one or more repetitions. -/
def plus (r : Regex) : Regex := cat r (star r)

/-- The postfix operator `{n,}` : at least `n` repetitions. -/
def atLeast : Nat → Regex → Regex
  | 0, r => star r
  | n + 1, r => cat r (atLeast n r)

/-- Does the expression match the empty string. -/
def nullable : Regex → Bool
  | fail => false
  | eps => true
  | cls _ => false
  | cat a b => a.nullable && b.nullable
  | alt a b => a.nullable || b.nullable
  | star _ => true

/-- Brzozowski derivative: what remains to be matched after reading `c`. -/
def deriv : Regex → Char → Regex
  | fail, _ => fail
  | eps, _ => fail
  | cls rs, c => if inClass rs c then eps else fail
  | cat a b, c =>
    if a.nullable then alt (cat (a.deriv c) b) (b.deriv c) else cat (a.deriv c) b
  | alt a b, c => alt (a.deriv c) (b.deriv c)
  | star a, c => cat (a.deriv c) (star a)

/-- Whole-string match. -/
def matchList : Regex → List Char → Bool
  | r, [] => r.nullable
  | r, c :: cs => (r.deriv c).matchList cs

/-- The strings an expression denotes. -/
def Denotes : Regex → List Char → Prop
  | fail, _ => False
  | eps, s => s = []
  | cls rs, s => ∃ c, s = [c] ∧ inClass rs c = true
  | cat a b, s => ∃ u v, s = u ++ v ∧ a.Denotes u ∧ b.Denotes v
  | alt a b, s => a.Denotes s ∨ b.Denotes s
  | star a, s => ∃ L : List (List Char), s = L.flatten ∧ ∀ u ∈ L, u ≠ [] ∧ a.Denotes u

end Regex

/-! ## `isValidEmail` (main.go, lines 103-107) -/

/-- The bracket expression `[a-zA-Z0-9._%+-]`. -/
def localClass : List ClassRange :=
  [⟨'a', 'z'⟩, ⟨'A', 'Z'⟩, ⟨'0', '9'⟩, ⟨'.', '.'⟩, ⟨'_', '_'⟩, ⟨'%', '%'⟩, ⟨'+', '+'⟩, ⟨'-', '-'⟩]

/-- The bracket expression `[a-zA-Z0-9.-]`. -/
def domainClass : List ClassRange :=
  [⟨'a', 'z'⟩, ⟨'A', 'Z'⟩, ⟨'0', '9'⟩, ⟨'.', '.'⟩, ⟨'-', '-'⟩]

/-- The bracket expression `[a-zA-Z]`. -/
def letterClass : List ClassRange :=
  [⟨'a', 'z'⟩, ⟨'A', 'Z'⟩]

/-- The pattern `^[a-zA-Z0-9._%+-]+@[a-zA-Z0-9.-]+\.[a-zA-Z]{2,}$` of line 104.  The anchors
`^` and `$` (Go: beginning and end of the text, no multi-line flag) make `MatchString` a
match of the whole string, which is what `Regex.matchList` decides. -/
def emailRegex : Regex :=
  Regex.cat (Regex.plus (Regex.cls localClass))
    (Regex.cat (Regex.lit '@')
      (Regex.cat (Regex.plus (Regex.cls domainClass))
        (Regex.cat (Regex.lit '.')
          (Regex.atLeast 2 (Regex.cls letterClass)))))

/-- The Go function `isValidEmail`: `re.MatchString(email)`.  RE2 matches code points, so
the string is taken as its sequence of characters; a byte that is not valid UTF-8 is read
by Go as U+FFFD, which no bracket expression of the pattern contains. -/
def isValidEmail (email : String) : Bool :=
  emailRegex.matchList email.toList

/-! ### The validator as the specification words it -/

/-- A letter: `a-z` or `A-Z`. -/
def IsLetter (c : Char) : Prop := ('a' ≤ c ∧ c ≤ 'z') ∨ ('A' ≤ c ∧ c ≤ 'Z')

/-- A digit: `0-9`. -/
def IsDigit (c : Char) : Prop := '0' ≤ c ∧ c ≤ '9'

/-- A character allowed in the local part: a letter, a digit or one of `. _ % + -`. -/
def IsLocalChar (c : Char) : Prop :=
  IsLetter c ∨ IsDigit c ∨ c = '.' ∨ c = '_' ∨ c = '%' ∨ c = '+' ∨ c = '-'

/-- A character allowed in the domain: a letter, a digit, `.` or `-`. -/
def IsDomainChar (c : Char) : Prop :=
  IsLetter c ∨ IsDigit c ∨ c = '.' ∨ c = '-'

/-- The shape `local@domain.tld` of the specification: a non-empty local part, an `@`, a
non-empty domain, a literal `.` and a top-level label of at least two letters. -/
def SpecValidEmail (s : List Char) : Prop :=
  ∃ l d t : List Char, s = l ++ '@' :: (d ++ '.' :: t) ∧
    l ≠ [] ∧ (∀ c ∈ l, IsLocalChar c) ∧
    d ≠ [] ∧ (∀ c ∈ d, IsDomainChar c) ∧
    2 ≤ t.length ∧ (∀ c ∈ t, IsLetter c)

/-- The string ends in a `.` followed by at least two letters (and nothing else). -/
def EndsInDotLetters (s : List Char) : Prop :=
  ∃ p t : List Char, s = p ++ '.' :: t ∧ 2 ≤ t.length ∧ ∀ c ∈ t, IsLetter c

instance : DecidablePred IsLetter := fun c => by
  unfold IsLetter
  infer_instance

instance : DecidablePred IsDigit := fun c => by
  unfold IsDigit
  infer_instance

instance : DecidablePred IsLocalChar := fun c => by
  unfold IsLocalChar
  infer_instance

instance : DecidablePred IsDomainChar := fun c => by
  unfold IsDomainChar
  infer_instance

/-! ## The status store (main.go, lines 45-72) -/

/-- A row of the table `emails`, as far as the program reads it: the columns `email` and
`status`.  The column `id` is the position of the row in the list (autoincrement) and
`timestamp` is never read. -/
structure EmailRow where
  email : String
  status : String
deriving DecidableEq, Repr

/-- The table `emails`, oldest row first. -/
abbrev Store := List EmailRow

/-- The result of `SELECT COUNT(*) FROM emails WHERE email = ? AND status = 'sent'`. -/
def countSent (db : Store) (email : String) : Nat :=
  (db.filter (fun r => r.email == email && r.status == "sent")).length

/-- The Go function `emailSent`.  `queryOk` tells whether `QueryRow(...).Scan(&count)`
succeeds; when it fails the error is logged and `count` keeps its zero value. -/
def emailSent (queryOk : Bool) (db : Store) (email : String) : Bool :=
  let count : Nat := if queryOk then countSent db email else 0
  decide (count > 0)

/-- The Go function `saveEmailStatus`.  `execOk` tells whether the `INSERT` succeeds; when it
fails the error is logged and the table is left as it was. -/
def saveEmailStatus (execOk : Bool) (db : Store) (email status : String) : Store :=
  if execOk then db ++ [⟨email, status⟩] else db

/-! ## The transport session (main.go, lines 109-164) -/

/-- The calls of `sendEmailWithTLS` whose error is checked, in program order:
`smtp.Dial`, `conn.StartTLS`, `conn.Auth`, `conn.Mail`, `conn.Rcpt`, `conn.Data`,
`writer.Write`. -/
inductive Step where
  | dial
  | startTLS
  | auth
  | mail
  | rcpt
  | data
  | write
deriving DecidableEq, Repr

/-- The steps in program order. -/
def Step.all : List Step :=
  [Step.dial, Step.startTLS, Step.auth, Step.mail, Step.rcpt, Step.data, Step.write]

/-- Position of a step in program order. -/
def Step.idx : Step → Nat
  | dial => 0
  | startTLS => 1
  | auth => 2
  | mail => 3
  | rcpt => 4
  | data => 5
  | write => 6

/-- What one session does to the outside world.  A close carries what it returned
(`true` for `nil`). -/
inductive Effect where
  | attempt (s : Step)
  | closeWriter (ok : Bool)
  | closeConn (ok : Bool)
deriving DecidableEq, Repr

/-- How the network answers during one session: for each call, whether it returns `nil`. -/
structure NetOutcome where
  dial : Bool
  startTLS : Bool
  auth : Bool
  mail : Bool
  rcpt : Bool
  data : Bool
  write : Bool
  writerClose : Bool
  connClose : Bool
deriving DecidableEq, Repr

/-- Whether a step returns `nil` under the outcome. -/
def NetOutcome.ok (o : NetOutcome) : Step → Bool
  | Step.dial => o.dial
  | Step.startTLS => o.startTLS
  | Step.auth => o.auth
  | Step.mail => o.mail
  | Step.rcpt => o.rcpt
  | Step.data => o.data
  | Step.write => o.write

/-- What `sendEmailWithTLS` returns and does: `err = none` is `nil`, `err = some s` is the
error built by `fmt.Errorf` after step `s` failed. -/
structure SendResult where
  err : Option Step
  trace : List Effect
deriving DecidableEq, Repr

/-- The running function call: the effects so far and the stack of deferred calls, the most
recently deferred first. -/
structure Frame where
  trace : List Effect
  deferred : List Effect
deriving DecidableEq, Repr

/-- Perform a call. -/
def Frame.run (f : Frame) (e : Effect) : Frame :=
  { f with trace := f.trace ++ [e] }

/-- Register a deferred call (`defer`). -/
def Frame.defer (f : Frame) (e : Effect) : Frame :=
  { f with deferred := e :: f.deferred }

/-- Return from the function: the deferred calls run, last registered first, and what
they return is dropped. -/
def Frame.exit (f : Frame) (err : Option Step) : SendResult :=
  ⟨err, f.trace ++ f.deferred⟩

/-- The Go function `sendEmailWithTLS`, under the network outcome `o`. -/
def sendEmailWithTLS (o : NetOutcome) : SendResult :=
  let f : Frame := ⟨[], []⟩
  let f := f.run (Effect.attempt Step.dial)            -- conn, err := smtp.Dial(...)
  if !o.dial then f.exit (some Step.dial) else
  let f := f.defer (Effect.closeConn o.connClose)      -- defer conn.Close()
  let f := f.run (Effect.attempt Step.startTLS)        -- conn.StartTLS(tlsConfig)
  if !o.startTLS then f.exit (some Step.startTLS) else
  let f := f.run (Effect.attempt Step.auth)            -- conn.Auth(auth)
  if !o.auth then f.exit (some Step.auth) else
  let f := f.run (Effect.attempt Step.mail)            -- conn.Mail(config.SenderEmail)
  if !o.mail then f.exit (some Step.mail) else
  let f := f.run (Effect.attempt Step.rcpt)            -- conn.Rcpt(recipient.Email)
  if !o.rcpt then f.exit (some Step.rcpt) else
  let f := f.run (Effect.attempt Step.data)            -- writer, err := conn.Data()
  if !o.data then f.exit (some Step.data) else
  let f := f.defer (Effect.closeWriter o.writerClose)  -- defer writer.Close()
  let f := f.run (Effect.attempt Step.write)           -- writer.Write([]byte(message))
  if !o.write then f.exit (some Step.write) else
  f.exit none                                          -- return nil

/-- Is the effect a close of the connection. -/
def Effect.isCloseConn : Effect → Bool
  | closeConn _ => true
  | _ => false

/-- Is the effect a close of the data stream. -/
def Effect.isCloseWriter : Effect → Bool
  | closeWriter _ => true
  | _ => false

/-- The steps attempted in a trace, in order. -/
def attempts (tr : List Effect) : List Step :=
  tr.filterMap (fun e => match e with
    | Effect.attempt s => some s
    | _ => none)

/-- The number of leading steps that succeed under the outcome. -/
def NetOutcome.succeeded (o : NetOutcome) : Nat :=
  (Step.all.takeWhile o.ok).length

/-! ## The delivery loop (main.go, lines 211-237) -/

/-- The outside world during one run, by iteration of the loop (from 0): whether the query
of `emailSent` succeeds, whether the insert of `saveEmailStatus` succeeds, how the network
answers the session, and what `rand.Intn(40)` returns.  Each iteration makes at most one
query, one insert and one session, and exactly one call of `rand.Intn`. -/
structure Env where
  queryOk : Nat → Bool
  execOk : Nat → Bool
  net : Nat → NetOutcome
  intn : Nat → Nat

/-- The constant `time.Second`, in nanoseconds. -/
def second : Int := 1000000000

/-- A mathematical integer as the `int64` it wraps to. -/
def wrapInt64 (x : Int) : Int := (x + 2 ^ 63) % 2 ^ 64 - 2 ^ 63

/-- The expression `time.Duration(r+20) * time.Second` of line 212, in nanoseconds. -/
def delayOf (r : Nat) : Int :=
  wrapInt64 (wrapInt64 ((r : Int) + 20) * second)

/-- What one iteration of the loop does, in order. -/
inductive Event where
  | query (email : String) (ok : Bool)
  | send (email : String) (res : SendResult)
  | insert (email : String) (status : String) (ok : Bool)
  | sleep (ns : Int)
deriving DecidableEq, Repr

/-- The body of the `for` loop for recipient number `i`: the table afterwards and the events
of the iteration. -/
def processRecipient (env : Env) (i : Nat) (db : Store) (email : String) :
    Store × List Event :=
  let delay := delayOf (env.intn i)                                -- line 212
  if emailSent (env.queryOk i) db email then                       -- line 216
    (db, [Event.query email (env.queryOk i)])                      -- continue
  else if !isValidEmail email then                                 -- line 221
    (saveEmailStatus (env.execOk i) db email "invalid",
      [Event.query email (env.queryOk i), Event.insert email "invalid" (env.execOk i)])
  else
    let res := sendEmailWithTLS (env.net i)                        -- line 227
    match res.err with
    | some _ =>
      (saveEmailStatus (env.execOk i) db email "failed",
        [Event.query email (env.queryOk i), Event.send email res,
          Event.insert email "failed" (env.execOk i)])
    | none =>
      (saveEmailStatus (env.execOk i) db email "sent",
        [Event.query email (env.queryOk i), Event.send email res,
          Event.insert email "sent" (env.execOk i), Event.sleep delay])

/-- The loop from recipient number `i` on: the final table and, for each recipient in
order, the events of its iteration. -/
def loopFrom (env : Env) : Nat → Store → List String → Store × List (List Event)
  | _, db, [] => (db, [])
  | i, db, r :: rs =>
    let step := processRecipient env i db r
    let rest := loopFrom env (i + 1) step.1 rs
    (rest.1, step.2 :: rest.2)

/-- The loop of `main` over the recipients loaded from the CSV file. -/
def mainLoop (env : Env) (db : Store) (recipients : List String) :
    Store × List (List Event) :=
  loopFrom env 0 db recipients

/-- The table after the first `k` recipients have been processed. -/
def storeAfter (env : Env) (db : Store) (recipients : List String) (k : Nat) : Store :=
  (mainLoop env db (recipients.take k)).1

/-- Is the event a call of `sendEmailWithTLS`. -/
def Event.isSend : Event → Bool
  | send _ _ => true
  | _ => false

/-- Is the event a call of `sendEmailWithTLS` for the address. -/
def Event.isSendTo (a : String) : Event → Bool
  | send email _ => email == a
  | _ => false

/-- Is the event a call of `time.Sleep`. -/
def Event.isSleep : Event → Bool
  | sleep _ => true
  | _ => false

/-- The durations slept in a list of events. -/
def sleeps (evs : List Event) : List Int :=
  evs.filterMap (fun e => match e with
    | Event.sleep ns => some ns
    | _ => none)

/-- Did the iteration hand the message over: a call of `sendEmailWithTLS` that returned
`nil`. -/
def delivered (evs : List Event) : Bool :=
  evs.any (fun e => match e with
    | Event.send _ res => res.err.isNone
    | _ => false)

/-- An environment in which every query, insert and network step succeeds and
`rand.Intn(40)` returns `r i` at iteration `i`. -/
def Env.allOk (r : Nat → Nat) : Env :=
  { queryOk := fun _ => true
    execOk := fun _ => true
    net := fun _ => ⟨true, true, true, true, true, true, true, true, true⟩
    intn := r }

/-! ## The derivative matcher decides the denotation -/

namespace Regex

theorem nullable_iff (r : Regex) : r.nullable = true ↔ r.Denotes [] := by
  induction r with
  | fail => simp [nullable, Denotes]
  | eps => simp [nullable, Denotes]
  | cls rs => simp [nullable, Denotes]
  | cat a b iha ihb =>
    simp only [nullable, Denotes, Bool.and_eq_true, iha, ihb]
    constructor
    · rintro ⟨ha, hb⟩
      exact ⟨[], [], rfl, ha, hb⟩
    · rintro ⟨u, v, huv, ha, hb⟩
      obtain ⟨rfl, rfl⟩ := List.append_eq_nil.mp huv.symm
      exact ⟨ha, hb⟩
  | alt a b iha ihb => simp [nullable, Denotes, iha, ihb]
  | star a _ =>
    simp only [nullable, Denotes, true_iff]
    exact ⟨[], rfl, by simp⟩

theorem denotes_cat_cons (a b : Regex) (c : Char) (s : List Char) :
    (cat a b).Denotes (c :: s) ↔
      (a.Denotes [] ∧ b.Denotes (c :: s)) ∨
        ∃ u v, s = u ++ v ∧ a.Denotes (c :: u) ∧ b.Denotes v := by
  simp only [Denotes]
  constructor
  · rintro ⟨u, v, huv, ha, hb⟩
    cases u with
    | nil =>
      left
      simp only [List.nil_append] at huv
      subst huv
      exact ⟨ha, hb⟩
    | cons x u =>
      right
      simp only [List.cons_append, List.cons.injEq] at huv
      obtain ⟨rfl, rfl⟩ := huv
      exact ⟨u, v, rfl, ha, hb⟩
  · rintro (⟨ha, hb⟩ | ⟨u, v, rfl, ha, hb⟩)
    · exact ⟨[], c :: s, rfl, ha, hb⟩
    · exact ⟨c :: u, v, rfl, ha, hb⟩

theorem denotes_star_cons (a : Regex) (c : Char) (s : List Char) :
    (star a).Denotes (c :: s) ↔
      ∃ u v, s = u ++ v ∧ a.Denotes (c :: u) ∧ (star a).Denotes v := by
  simp only [Denotes]
  constructor
  · rintro ⟨L, hL, hall⟩
    cases L with
    | nil => simp at hL
    | cons w L =>
      have hw := hall w (List.mem_cons_self _ _)
      cases w with
      | nil => exact absurd rfl hw.1
      | cons x w =>
        simp only [List.flatten_cons, List.cons_append, List.cons.injEq] at hL
        obtain ⟨rfl, rfl⟩ := hL
        exact ⟨w, L.flatten, rfl, hw.2, L, rfl,
          fun u hu => hall u (List.mem_cons_of_mem _ hu)⟩
  · rintro ⟨u, v, rfl, ha, L, rfl, hall⟩
    refine ⟨(c :: u) :: L, by simp, ?_⟩
    intro w hw
    rcases List.mem_cons.mp hw with rfl | hw
    · exact ⟨by simp, ha⟩
    · exact hall w hw

theorem deriv_iff (r : Regex) (c : Char) (s : List Char) :
    (r.deriv c).Denotes s ↔ r.Denotes (c :: s) := by
  induction r generalizing s with
  | fail => simp [deriv, Denotes]
  | eps => simp [deriv, Denotes]
  | cls rs =>
    by_cases h : inClass rs c = true
    · simp only [deriv, h, if_true, Denotes]
      constructor
      · rintro rfl
        exact ⟨c, rfl, h⟩
      · rintro ⟨x, hx, _⟩
        simp only [List.cons.injEq] at hx
        exact hx.2
    · simp only [deriv, h, Denotes, false_iff]
      rintro ⟨x, hx, hin⟩
      simp only [List.cons.injEq] at hx
      obtain ⟨rfl, -⟩ := hx
      exact h hin
  | cat a b iha ihb =>
    rw [denotes_cat_cons]
    by_cases h : a.nullable = true
    · have h0 := (nullable_iff a).mp h
      simp only [deriv, h, if_true, Denotes, iha, ihb]
      constructor
      · rintro (⟨u, v, rfl, ha, hb⟩ | hb)
        · exact Or.inr ⟨u, v, rfl, ha, hb⟩
        · exact Or.inl ⟨h0, hb⟩
      · rintro (⟨_, hb⟩ | ⟨u, v, rfl, ha, hb⟩)
        · exact Or.inr hb
        · exact Or.inl ⟨u, v, rfl, ha, hb⟩
    · have h0 : ¬ a.Denotes [] := fun hd => h ((nullable_iff a).mpr hd)
      simp only [deriv, h, Denotes, iha]
      constructor
      · rintro ⟨u, v, rfl, ha, hb⟩
        exact Or.inr ⟨u, v, rfl, ha, hb⟩
      · rintro (⟨ha, _⟩ | ⟨u, v, rfl, ha, hb⟩)
        · exact absurd ha h0
        · exact ⟨u, v, rfl, ha, hb⟩
  | alt a b iha ihb => simp [deriv, Denotes, iha, ihb]
  | star a iha =>
    rw [denotes_star_cons]
    simp only [deriv]
    constructor
    · rintro ⟨u, v, rfl, ha, hs⟩
      exact ⟨u, v, rfl, (iha u).mp ha, hs⟩
    · rintro ⟨u, v, rfl, ha, hs⟩
      exact ⟨u, v, rfl, (iha u).mpr ha, hs⟩

theorem matchList_iff (r : Regex) (s : List Char) :
    r.matchList s = true ↔ r.Denotes s := by
  induction s generalizing r with
  | nil => simpa [matchList] using nullable_iff r
  | cons c s ih => simp only [matchList, ih, deriv_iff]

end Regex

/-! ## The denotation of `emailRegex` -/

theorem contains_iff (lo hi c : Char) :
    (ClassRange.mk lo hi).contains c = true ↔ lo ≤ c ∧ c ≤ hi := by
  simp only [ClassRange.contains, Bool.and_eq_true, decide_eq_true_eq]
  exact Iff.rfl

theorem contains_single_iff (x c : Char) :
    (ClassRange.mk x x).contains c = true ↔ c = x := by
  rw [contains_iff]
  constructor
  · rintro ⟨h1, h2⟩
    exact Char.ext (UInt32.ext (Nat.le_antisymm h2 h1))
  · rintro rfl
    exact ⟨Nat.le_refl _, Nat.le_refl _⟩

theorem inClass_localClass (c : Char) : inClass localClass c = true ↔ IsLocalChar c := by
  simp only [inClass, localClass, List.any_cons, List.any_nil, Bool.or_false, Bool.or_eq_true,
    contains_single_iff]
  simp only [contains_iff, IsLocalChar, IsLetter, IsDigit, or_assoc]

theorem inClass_domainClass (c : Char) : inClass domainClass c = true ↔ IsDomainChar c := by
  simp only [inClass, domainClass, List.any_cons, List.any_nil, Bool.or_false, Bool.or_eq_true,
    contains_single_iff]
  simp only [contains_iff, IsDomainChar, IsLetter, IsDigit, or_assoc]

theorem inClass_letterClass (c : Char) : inClass letterClass c = true ↔ IsLetter c := by
  simp only [inClass, letterClass, List.any_cons, List.any_nil, Bool.or_false, Bool.or_eq_true,
    contains_iff, IsLetter]

namespace Regex

theorem denotes_lit (x : Char) (s : List Char) : (lit x).Denotes s ↔ s = [x] := by
  simp only [lit, Denotes, inClass, List.any_cons, List.any_nil, Bool.or_false,
    contains_single_iff]
  constructor
  · rintro ⟨c, rfl, rfl⟩
    rfl
  · rintro rfl
    exact ⟨x, rfl, rfl⟩

theorem denotes_star_cls (rs : List ClassRange) (s : List Char) :
    (star (cls rs)).Denotes s ↔ ∀ c ∈ s, inClass rs c = true := by
  induction s with
  | nil =>
    simp only [List.not_mem_nil, false_imp_iff, implies_true, iff_true]
    exact (nullable_iff _).mp rfl
  | cons x s ih =>
    rw [denotes_star_cons]
    simp only [List.mem_cons, forall_eq_or_imp, ← ih]
    constructor
    · rintro ⟨u, v, rfl, ⟨c, hc, hin⟩, hv⟩
      simp only [List.cons.injEq] at hc
      obtain ⟨rfl, rfl⟩ := hc
      exact ⟨hin, hv⟩
    · rintro ⟨hin, hs⟩
      exact ⟨[], s, rfl, ⟨x, rfl, hin⟩, hs⟩

theorem denotes_cls_cat (rs : List ClassRange) (r : Regex) (s : List Char) :
    (cat (cls rs) r).Denotes s ↔ ∃ c t, s = c :: t ∧ inClass rs c = true ∧ r.Denotes t := by
  simp only [Denotes]
  constructor
  · rintro ⟨u, v, rfl, ⟨c, rfl, hin⟩, hv⟩
    exact ⟨c, v, rfl, hin, hv⟩
  · rintro ⟨c, t, rfl, hin, ht⟩
    exact ⟨[c], t, rfl, ⟨c, rfl, hin⟩, ht⟩

theorem denotes_plus_cls (rs : List ClassRange) (s : List Char) :
    (plus (cls rs)).Denotes s ↔ s ≠ [] ∧ ∀ c ∈ s, inClass rs c = true := by
  rw [plus, denotes_cls_cat]
  simp only [denotes_star_cls]
  constructor
  · rintro ⟨c, t, rfl, hin, ht⟩
    refine ⟨by simp, ?_⟩
    intro x hx
    rcases List.mem_cons.mp hx with rfl | hx
    · exact hin
    · exact ht x hx
  · rintro ⟨hne, hall⟩
    cases s with
    | nil => exact absurd rfl hne
    | cons c t =>
      exact ⟨c, t, rfl, hall c (List.mem_cons_self _ _),
        fun x hx => hall x (List.mem_cons_of_mem _ hx)⟩

theorem denotes_atLeast_cls (n : Nat) (rs : List ClassRange) (s : List Char) :
    (atLeast n (cls rs)).Denotes s ↔ n ≤ s.length ∧ ∀ c ∈ s, inClass rs c = true := by
  induction n generalizing s with
  | zero => simp [atLeast, denotes_star_cls]
  | succ n ih =>
    rw [atLeast, denotes_cls_cat]
    constructor
    · rintro ⟨c, t, rfl, hin, ht⟩
      obtain ⟨hlen, hall⟩ := (ih t).mp ht
      refine ⟨by simpa using hlen, ?_⟩
      intro x hx
      rcases List.mem_cons.mp hx with rfl | hx
      · exact hin
      · exact hall x hx
    · rintro ⟨hlen, hall⟩
      cases s with
      | nil => simp at hlen
      | cons c t =>
        refine ⟨c, t, rfl, hall c (List.mem_cons_self _ _), (ih t).mpr ⟨?_, ?_⟩⟩
        · simpa using hlen
        · exact fun x hx => hall x (List.mem_cons_of_mem _ hx)

end Regex

theorem emailRegex_denotes (s : List Char) : emailRegex.Denotes s ↔ SpecValidEmail s := by
  unfold emailRegex SpecValidEmail
  simp only [Regex.Denotes.eq_4, Regex.denotes_plus_cls, Regex.denotes_lit,
    Regex.denotes_atLeast_cls, inClass_localClass, inClass_domainClass, inClass_letterClass]
  constructor
  · rintro ⟨l, _, rfl, ⟨hl, hlc⟩, _, _, rfl, rfl, d, _, rfl, ⟨hd, hdc⟩, _, t, rfl, rfl, ht, htc⟩
    exact ⟨l, d, t, by simp, hl, hlc, hd, hdc, ht, htc⟩
  · rintro ⟨l, d, t, rfl, hl, hlc, hd, hdc, ht, htc⟩
    exact ⟨l, _, rfl, ⟨hl, hlc⟩, ['@'], _, rfl, rfl, d, _, rfl, ⟨hd, hdc⟩, ['.'], t, rfl, rfl,
      ht, htc⟩

theorem isValidEmail_iff_spec (email : String) :
    isValidEmail email = true ↔ SpecValidEmail email.toList := by
  rw [isValidEmail, Regex.matchList_iff, emailRegex_denotes]

/-! ## The status store: lemmas -/

theorem countSent_pos_iff (db : Store) (a : String) :
    0 < countSent db a ↔ (⟨a, "sent"⟩ : EmailRow) ∈ db := by
  simp only [countSent, List.length_pos_iff_exists_mem, List.mem_filter, Bool.and_eq_true,
    beq_iff_eq]
  constructor
  · rintro ⟨⟨e, st⟩, hmem, he, hst⟩
    simp only at he hst
    subst he
    subst hst
    exact hmem
  · intro h
    exact ⟨_, h, rfl, rfl⟩

theorem emailSent_eq_true_iff (q : Bool) (db : Store) (a : String) :
    emailSent q db a = true ↔ q = true ∧ (⟨a, "sent"⟩ : EmailRow) ∈ db := by
  cases q
  · simp [emailSent]
  · simp only [emailSent, if_true, decide_eq_true_eq, true_and, gt_iff_lt]
    exact countSent_pos_iff db a

theorem emailSent_eq_false_of_not_mem (q : Bool) (db : Store) (a : String)
    (h : (⟨a, "sent"⟩ : EmailRow) ∉ db) : emailSent q db a = false := by
  cases hs : emailSent q db a
  · rfl
  · exact absurd ((emailSent_eq_true_iff q db a).mp hs).2 h

/-! ## One iteration of the loop: the four paths -/

theorem processRecipient_skip (env : Env) (i : Nat) (db : Store) (r : String)
    (h : emailSent (env.queryOk i) db r = true) :
    processRecipient env i db r = (db, [Event.query r (env.queryOk i)]) := by
  simp [processRecipient, h]

theorem processRecipient_invalid (env : Env) (i : Nat) (db : Store) (r : String)
    (h : emailSent (env.queryOk i) db r = false) (hv : isValidEmail r = false) :
    processRecipient env i db r =
      (saveEmailStatus (env.execOk i) db r "invalid",
        [Event.query r (env.queryOk i), Event.insert r "invalid" (env.execOk i)]) := by
  simp [processRecipient, h, hv]

theorem processRecipient_failed (env : Env) (i : Nat) (db : Store) (r : String)
    (h : emailSent (env.queryOk i) db r = false) (hv : isValidEmail r = true)
    (he : (sendEmailWithTLS (env.net i)).err ≠ none) :
    processRecipient env i db r =
      (saveEmailStatus (env.execOk i) db r "failed",
        [Event.query r (env.queryOk i), Event.send r (sendEmailWithTLS (env.net i)),
          Event.insert r "failed" (env.execOk i)]) := by
  cases hs : (sendEmailWithTLS (env.net i)).err with
  | none => exact absurd hs he
  | some s => simp [processRecipient, h, hv, hs]

theorem processRecipient_sent (env : Env) (i : Nat) (db : Store) (r : String)
    (h : emailSent (env.queryOk i) db r = false) (hv : isValidEmail r = true)
    (he : (sendEmailWithTLS (env.net i)).err = none) :
    processRecipient env i db r =
      (saveEmailStatus (env.execOk i) db r "sent",
        [Event.query r (env.queryOk i), Event.send r (sendEmailWithTLS (env.net i)),
          Event.insert r "sent" (env.execOk i), Event.sleep (delayOf (env.intn i))]) := by
  simp [processRecipient, h, hv, he]

/-- The four paths are the only ones. -/
theorem processRecipient_cases (env : Env) (i : Nat) (db : Store) (r : String) :
    (emailSent (env.queryOk i) db r = true ∧
      processRecipient env i db r = (db, [Event.query r (env.queryOk i)])) ∨
    (emailSent (env.queryOk i) db r = false ∧ isValidEmail r = false ∧
      processRecipient env i db r =
        (saveEmailStatus (env.execOk i) db r "invalid",
          [Event.query r (env.queryOk i), Event.insert r "invalid" (env.execOk i)])) ∨
    (emailSent (env.queryOk i) db r = false ∧ isValidEmail r = true ∧
      (sendEmailWithTLS (env.net i)).err ≠ none ∧
      processRecipient env i db r =
        (saveEmailStatus (env.execOk i) db r "failed",
          [Event.query r (env.queryOk i), Event.send r (sendEmailWithTLS (env.net i)),
            Event.insert r "failed" (env.execOk i)])) ∨
    (emailSent (env.queryOk i) db r = false ∧ isValidEmail r = true ∧
      (sendEmailWithTLS (env.net i)).err = none ∧
      processRecipient env i db r =
        (saveEmailStatus (env.execOk i) db r "sent",
          [Event.query r (env.queryOk i), Event.send r (sendEmailWithTLS (env.net i)),
            Event.insert r "sent" (env.execOk i), Event.sleep (delayOf (env.intn i))])) := by
  cases h : emailSent (env.queryOk i) db r
  · cases hv : isValidEmail r
    · exact Or.inr (Or.inl ⟨rfl, rfl, processRecipient_invalid env i db r h hv⟩)
    · by_cases he : (sendEmailWithTLS (env.net i)).err = none
      · exact Or.inr (Or.inr (Or.inr ⟨rfl, rfl, he, processRecipient_sent env i db r h hv he⟩))
      · exact Or.inr (Or.inr (Or.inl ⟨rfl, rfl, he, processRecipient_failed env i db r h hv he⟩))
  · exact Or.inl ⟨rfl, processRecipient_skip env i db r h⟩

theorem saveEmailStatus_eq (ok : Bool) (db : Store) (e st : String) :
    saveEmailStatus ok db e st = db ++ (if ok then [⟨e, st⟩] else []) := by
  cases ok <;> simp [saveEmailStatus]

/-- One iteration appends at most one row and touches nothing else. -/
theorem processRecipient_store (env : Env) (i : Nat) (db : Store) (r : String) :
    ∃ l : List EmailRow, (processRecipient env i db r).1 = db ++ l ∧ l.length ≤ 1 := by
  rcases processRecipient_cases env i db r with ⟨_, h⟩ | ⟨_, _, h⟩ | ⟨_, _, _, h⟩ | ⟨_, _, _, h⟩
  · exact ⟨[], by simp [h], by simp⟩
  all_goals
    rw [h, saveEmailStatus_eq]
    refine ⟨_, rfl, ?_⟩
    split <;> simp

/-! ## The loop: unfolding lemmas -/

theorem loopFrom_append (env : Env) (xs ys : List String) (i : Nat) (db : Store) :
    loopFrom env i db (xs ++ ys) =
      ((loopFrom env (i + xs.length) (loopFrom env i db xs).1 ys).1,
        (loopFrom env i db xs).2 ++
          (loopFrom env (i + xs.length) (loopFrom env i db xs).1 ys).2) := by
  induction xs generalizing i db with
  | nil => simp [loopFrom]
  | cons x xs ih =>
    have e : i + 1 + xs.length = i + (xs.length + 1) := by omega
    simp only [List.cons_append, List.length_cons]
    rw [loopFrom, loopFrom, ih, e]
    rfl

theorem loopFrom_length (env : Env) (rs : List String) (i : Nat) (db : Store) :
    (loopFrom env i db rs).2.length = rs.length := by
  induction rs generalizing i db with
  | nil => rfl
  | cons r rs ih => simp [loopFrom, ih]

theorem loopFrom_events_get (env : Env) (rs : List String) (i : Nat) (db : Store)
    (j : Nat) (r : String) (h : rs[j]? = some r) :
    (loopFrom env i db rs).2[j]? =
      some (processRecipient env (i + j) (loopFrom env i db (rs.take j)).1 r).2 := by
  induction rs generalizing i db j with
  | nil => simp at h
  | cons x rs ih =>
    cases j with
    | zero =>
      simp only [List.getElem?_cons_zero, Option.some.injEq] at h
      subst h
      simp [loopFrom]
    | succ j =>
      simp only [List.getElem?_cons_succ] at h
      have e : i + 1 + j = i + (j + 1) := by omega
      simp only [loopFrom, List.getElem?_cons_succ, List.take_succ_cons, ih _ _ _ h, e]

theorem loopFrom_take_succ (env : Env) (rs : List String) (i : Nat) (db : Store)
    (j : Nat) (r : String) (h : rs[j]? = some r) :
    (loopFrom env i db (rs.take (j + 1))).1 =
      (processRecipient env (i + j) (loopFrom env i db (rs.take j)).1 r).1 := by
  induction rs generalizing i db j with
  | nil => simp at h
  | cons x rs ih =>
    cases j with
    | zero =>
      simp only [List.getElem?_cons_zero, Option.some.injEq] at h
      subst h
      simp [loopFrom]
    | succ j =>
      simp only [List.getElem?_cons_succ] at h
      have e : i + 1 + j = i + (j + 1) := by omega
      simp only [loopFrom, List.take_succ_cons, ih _ _ _ h, e]

theorem events_get (env : Env) (db : Store) (rs : List String) (j : Nat) (r : String)
    (h : rs[j]? = some r) :
    (mainLoop env db rs).2[j]? = some (processRecipient env j (storeAfter env db rs j) r).2 := by
  have := loopFrom_events_get env rs 0 db j r h
  simpa [mainLoop, storeAfter] using this

theorem storeAfter_succ (env : Env) (db : Store) (rs : List String) (j : Nat) (r : String)
    (h : rs[j]? = some r) :
    storeAfter env db rs (j + 1) = (processRecipient env j (storeAfter env db rs j) r).1 := by
  have := loopFrom_take_succ env rs 0 db j r h
  simpa [mainLoop, storeAfter] using this

theorem storeAfter_succ_of_none (env : Env) (db : Store) (rs : List String) (j : Nat)
    (h : rs[j]? = none) :
    storeAfter env db rs (j + 1) = storeAfter env db rs j := by
  have hl : rs.length ≤ j := by simpa using h
  simp [storeAfter, List.take_of_length_le hl, List.take_of_length_le (Nat.le_succ_of_le hl)]

theorem storeAfter_zero (env : Env) (db : Store) (rs : List String) :
    storeAfter env db rs 0 = db := by
  simp [storeAfter, mainLoop, loopFrom]

theorem storeAfter_length (env : Env) (db : Store) (rs : List String) :
    storeAfter env db rs rs.length = (mainLoop env db rs).1 := by
  simp [storeAfter]

/-- Between two iterations the table only grows at its end. -/
theorem storeAfter_step (env : Env) (db : Store) (rs : List String) (j : Nat) :
    ∃ l : List EmailRow,
      storeAfter env db rs (j + 1) = storeAfter env db rs j ++ l ∧ l.length ≤ 1 := by
  cases h : rs[j]? with
  | none => exact ⟨[], by simp [storeAfter_succ_of_none env db rs j h], by simp⟩
  | some r =>
    rw [storeAfter_succ env db rs j r h]
    exact processRecipient_store env j _ r

theorem storeAfter_mono (env : Env) (db : Store) (rs : List String) (j k : Nat)
    (hjk : j ≤ k) : storeAfter env db rs j <+: storeAfter env db rs k := by
  induction k with
  | zero =>
    have : j = 0 := by omega
    subst this
    exact ⟨[], by simp⟩
  | succ k ih =>
    rcases Nat.lt_or_ge j (k + 1) with hlt | hge
    · obtain ⟨l, hl, -⟩ := storeAfter_step env db rs k
      obtain ⟨t, ht⟩ := ih (by omega)
      exact ⟨t ++ l, by rw [hl, ← ht, List.append_assoc]⟩
    · have : j = k + 1 := by omega
      subst this
      exact ⟨[], by simp⟩

theorem storeAfter_of_mem (env : Env) (db : Store) (rs : List String) (k : Nat)
    (row : EmailRow) (h : row ∈ db) : row ∈ storeAfter env db rs k := by
  obtain ⟨t, ht⟩ := storeAfter_mono env db rs 0 k (Nat.zero_le k)
  rw [storeAfter_zero] at ht
  rw [← ht]
  exact List.mem_append_left t h

/-- Every list of events of the run is the list of one iteration. -/
theorem events_mem (env : Env) (db : Store) (rs : List String) (evs : List Event)
    (h : evs ∈ (mainLoop env db rs).2) :
    ∃ j r, rs[j]? = some r ∧
      evs = (processRecipient env j (storeAfter env db rs j) r).2 := by
  obtain ⟨j, hj, hget⟩ := List.getElem_of_mem h
  have hlen : j < rs.length := by
    have := loopFrom_length env rs 0 db
    simp only [mainLoop] at hj
    omega
  have hr : rs[j]? = some rs[j] := List.getElem?_eq_getElem hlen
  have h2 := events_get env db rs j rs[j] hr
  rw [List.getElem?_eq_getElem hj, hget] at h2
  exact ⟨j, rs[j], hr, Option.some.inj h2⟩

/-- A session is only opened on the last two paths, for the recipient of the iteration. -/
theorem send_mem_processRecipient (env : Env) (i : Nat) (db : Store) (r : String)
    (e : Event) (he : e ∈ (processRecipient env i db r).2) (hs : e.isSend = true) :
    e = Event.send r (sendEmailWithTLS (env.net i)) ∧
      emailSent (env.queryOk i) db r = false ∧ isValidEmail r = true := by
  rcases processRecipient_cases env i db r with
    ⟨_, h⟩ | ⟨_, _, h⟩ | ⟨hq, hv, _, h⟩ | ⟨hq, hv, _, h⟩ <;>
    rw [h] at he <;> simp only [List.mem_cons, List.mem_singleton, List.not_mem_nil,
      or_false] at he
  · subst he
    simp [Event.isSend] at hs
  · rcases he with rfl | rfl <;> simp [Event.isSend] at hs
  · rcases he with rfl | rfl | rfl
    · simp [Event.isSend] at hs
    · exact ⟨rfl, hq, hv⟩
    · simp [Event.isSend] at hs
  · rcases he with rfl | rfl | rfl | rfl
    · simp [Event.isSend] at hs
    · exact ⟨rfl, hq, hv⟩
    · simp [Event.isSend] at hs
    · simp [Event.isSend] at hs

theorem isSend_of_isSendTo (a : String) (e : Event) (h : e.isSendTo a = true) :
    e.isSend = true := by
  cases e <;> simp_all [Event.isSendTo, Event.isSend]

theorem countP_flatten_eq_zero {α : Type} (p : α → Bool) (L : List (List α))
    (h : ∀ l ∈ L, ∀ x ∈ l, p x = false) : L.flatten.countP p = 0 := by
  rw [List.countP_eq_zero]
  intro x hx
  obtain ⟨l, hl, hxl⟩ := List.mem_flatten.mp hx
  simp [h l hl x hxl]

/-- With the query succeeding, an address the table holds as sent takes the skip path. -/
theorem skip_of_sent (env : Env) (hq : ∀ i, env.queryOk i = true) (db : Store)
    (rs : List String) (j : Nat) (a : String) (hmem : (⟨a, "sent"⟩ : EmailRow) ∈ db) :
    processRecipient env j (storeAfter env db rs j) a =
      (storeAfter env db rs j, [Event.query a true]) := by
  have hs : emailSent (env.queryOk j) (storeAfter env db rs j) a = true :=
    (emailSent_eq_true_iff _ _ _).mpr ⟨hq j, storeAfter_of_mem env db rs j _ hmem⟩
  rw [processRecipient_skip env j _ a hs, hq j]

/-! ## The loop: pacing, and what an iteration reads of the table -/

theorem delayOf_eq (r : Nat) (h : r < 40) : delayOf r = ((r + 20 : Nat) : Int) * second := by
  simp only [delayOf, wrapInt64, second]
  push_cast
  omega

/-- Which iterations sleep, and for how long. -/
theorem sleeps_processRecipient (env : Env) (i : Nat) (db : Store) (r : String) :
    delivered (processRecipient env i db r).2 =
      (!emailSent (env.queryOk i) db r && isValidEmail r &&
        (sendEmailWithTLS (env.net i)).err.isNone) ∧
    sleeps (processRecipient env i db r).2 =
      (if delivered (processRecipient env i db r).2 then [delayOf (env.intn i)] else []) ∧
    (processRecipient env i db r).2.countP Event.isSleep =
      (if delivered (processRecipient env i db r).2 then 1 else 0) := by
  rcases processRecipient_cases env i db r with
    ⟨hq, h⟩ | ⟨hq, hv, h⟩ | ⟨hq, hv, he, h⟩ | ⟨hq, hv, he, h⟩
  · rw [h, hq]
    exact ⟨rfl, rfl, rfl⟩
  · rw [h, hq, hv]
    exact ⟨rfl, rfl, rfl⟩
  · have he2 : (sendEmailWithTLS (env.net i)).err.isNone = false := by
      cases hx : (sendEmailWithTLS (env.net i)).err with
      | none => exact absurd hx he
      | some s => rfl
    rw [h, hq, hv, he2]
    simp [delivered, sleeps, he2, Event.isSleep]
  · have he2 : (sendEmailWithTLS (env.net i)).err.isNone = true := by rw [he]; rfl
    rw [h, hq, hv, he2]
    simp [delivered, sleeps, he2, Event.isSleep]

theorem emailSent_congr (q : Bool) (db1 db2 : Store)
    (h : ∀ a, (⟨a, "sent"⟩ : EmailRow) ∈ db1 ↔ (⟨a, "sent"⟩ : EmailRow) ∈ db2) (r : String) :
    emailSent q db1 r = emailSent q db2 r := by
  rw [Bool.eq_iff_iff, emailSent_eq_true_iff, emailSent_eq_true_iff, h]

/-- An iteration reads the table only through `emailSent`. -/
theorem processRecipient_congr (env : Env) (i : Nat) (db1 db2 : Store) (r : String)
    (h : emailSent (env.queryOk i) db1 r = emailSent (env.queryOk i) db2 r) :
    ∃ l : List EmailRow, (processRecipient env i db1 r).1 = db1 ++ l ∧
      (processRecipient env i db2 r).1 = db2 ++ l ∧
      (processRecipient env i db1 r).2 = (processRecipient env i db2 r).2 := by
  rcases processRecipient_cases env i db1 r with
    ⟨hq, h1⟩ | ⟨hq, hv, h1⟩ | ⟨hq, hv, he, h1⟩ | ⟨hq, hv, he, h1⟩
  · rw [h1, processRecipient_skip env i db2 r (h ▸ hq)]
    exact ⟨[], by simp, by simp, rfl⟩
  · rw [h1, processRecipient_invalid env i db2 r (h ▸ hq) hv]
    exact ⟨_, saveEmailStatus_eq _ _ _ _, saveEmailStatus_eq _ _ _ _, rfl⟩
  · rw [h1, processRecipient_failed env i db2 r (h ▸ hq) hv he]
    exact ⟨_, saveEmailStatus_eq _ _ _ _, saveEmailStatus_eq _ _ _ _, rfl⟩
  · rw [h1, processRecipient_sent env i db2 r (h ▸ hq) hv he]
    exact ⟨_, saveEmailStatus_eq _ _ _ _, saveEmailStatus_eq _ _ _ _, rfl⟩

/-- Two tables with the same `sent` rows drive the loop through the same events and receive
the same new rows. -/
theorem loopFrom_congr (env : Env) (rs : List String) (i : Nat) (db1 db2 : Store)
    (h : ∀ a, (⟨a, "sent"⟩ : EmailRow) ∈ db1 ↔ (⟨a, "sent"⟩ : EmailRow) ∈ db2) :
    ∃ t : List EmailRow, (loopFrom env i db1 rs).1 = db1 ++ t ∧
      (loopFrom env i db2 rs).1 = db2 ++ t ∧
      (loopFrom env i db1 rs).2 = (loopFrom env i db2 rs).2 := by
  induction rs generalizing i db1 db2 with
  | nil => exact ⟨[], by simp [loopFrom], by simp [loopFrom], rfl⟩
  | cons r rs ih =>
    obtain ⟨l, h1, h2, h3⟩ :=
      processRecipient_congr env i db1 db2 r (emailSent_congr _ db1 db2 h r)
    have h' : ∀ a, (⟨a, "sent"⟩ : EmailRow) ∈ db1 ++ l ↔ (⟨a, "sent"⟩ : EmailRow) ∈ db2 ++ l := by
      intro a
      simp only [List.mem_append, h a]
    obtain ⟨t, t1, t2, t3⟩ := ih (i + 1) (db1 ++ l) (db2 ++ l) h'
    refine ⟨l ++ t, ?_, ?_, ?_⟩
    · simp only [loopFrom, h1, t1, List.append_assoc]
    · simp only [loopFrom, h2, t2, List.append_assoc]
    · simp only [loopFrom, h1, h2, h3, t3]

/-- A `sent` row is either there from the start or written for a valid address. -/
theorem sent_origin (env : Env) (db : Store) (rs : List String) (k : Nat) (b : String)
    (h : (⟨b, "sent"⟩ : EmailRow) ∈ storeAfter env db rs k) :
    (⟨b, "sent"⟩ : EmailRow) ∈ db ∨ isValidEmail b = true := by
  induction k with
  | zero =>
    rw [storeAfter_zero] at h
    exact Or.inl h
  | succ k ih =>
    cases hr : rs[k]? with
    | none =>
      rw [storeAfter_succ_of_none env db rs k hr] at h
      exact ih h
    | some r =>
      rw [storeAfter_succ env db rs k r hr] at h
      rcases processRecipient_cases env k (storeAfter env db rs k) r with
        ⟨_, h1⟩ | ⟨_, _, h1⟩ | ⟨_, _, _, h1⟩ | ⟨_, hv, _, h1⟩ <;>
        rw [h1] at h
      · exact ih h
      · rw [saveEmailStatus_eq] at h
        rcases List.mem_append.mp h with h | h
        · exact ih h
        · split at h <;> simp at h
      · rw [saveEmailStatus_eq] at h
        rcases List.mem_append.mp h with h | h
        · exact ih h
        · split at h <;> simp at h
      · rw [saveEmailStatus_eq] at h
        rcases List.mem_append.mp h with h | h
        · exact ih h
        · split at h
          · simp only [List.mem_singleton, EmailRow.mk.injEq] at h
            rw [h.1]
            exact Or.inr hv
          · simp at h

/-! ## The transport session: lemmas -/

theorem forall_step_iff (p : Step → Prop) :
    (∀ s, p s) ↔ p Step.dial ∧ p Step.startTLS ∧ p Step.auth ∧ p Step.mail ∧ p Step.rcpt ∧
      p Step.data ∧ p Step.write := by
  constructor
  · intro h
    exact ⟨h _, h _, h _, h _, h _, h _, h _⟩
  · rintro ⟨h1, h2, h3, h4, h5, h6, h7⟩ s
    cases s <;> assumption

theorem mem_attempts (tr : List Effect) (s : Step) :
    s ∈ attempts tr ↔ Effect.attempt s ∈ tr := by
  simp only [attempts, List.mem_filterMap]
  constructor
  · rintro ⟨e, he, hs⟩
    cases e <;> simp_all
  · intro h
    exact ⟨_, h, rfl⟩

theorem count_attempts (tr : List Effect) (s : Step) :
    (attempts tr).count s = tr.count (Effect.attempt s) := by
  induction tr with
  | nil => rfl
  | cons e tr ih =>
    cases e with
    | attempt s2 =>
      by_cases h : s2 = s
      · subst h
        simp [attempts, List.filterMap_cons] at ih ⊢
        exact ih
      · have h2 : ¬ (Effect.attempt s2 = Effect.attempt s) := by simpa using h
        simp [attempts, List.filterMap_cons, List.count_cons, h, h2] at ih ⊢
        exact ih
    | closeWriter ok =>
      simp [attempts, List.filterMap_cons, List.count_cons] at ih ⊢
      exact ih
    | closeConn ok =>
      simp [attempts, List.filterMap_cons, List.count_cons] at ih ⊢
      exact ih

/-- The whole session in closed form. -/
theorem sendEmailWithTLS_eq (o : NetOutcome) :
    sendEmailWithTLS o =
      ⟨Step.all.find? (fun s => !o.ok s),
        (Step.all.take (o.succeeded + 1)).map Effect.attempt ++
          ((if o.dial && o.startTLS && o.auth && o.mail && o.rcpt && o.data
              then [Effect.closeWriter o.writerClose] else []) ++
            (if o.dial then [Effect.closeConn o.connClose] else []))⟩ := by
  rcases o with ⟨a, b, c, d, e, f, g, h, i⟩
  cases a <;> cases b <;> cases c <;> cases d <;> cases e <;> cases f <;> cases g <;> rfl

theorem attempts_trace (o : NetOutcome) :
    attempts (sendEmailWithTLS o).trace = Step.all.take (o.succeeded + 1) := by
  rcases o with ⟨a, b, c, d, e, f, g, h, i⟩
  cases a <;> cases b <;> cases c <;> cases d <;> cases e <;> cases f <;> cases g <;> rfl

set_option maxHeartbeats 4000000 in
theorem mem_take_succeeded (o : NetOutcome) (s : Step) :
    s ∈ Step.all.take (o.succeeded + 1) ↔ ∀ s2 : Step, s2.idx < s.idx → o.ok s2 = true := by
  rw [forall_step_iff]
  rcases o with ⟨a, b, c, d, e, f, g, h, i⟩
  cases a <;> cases b <;> cases c <;> cases d <;> cases e <;> cases f <;> cases g <;>
    cases s <;> simp [Step.all, NetOutcome.succeeded, NetOutcome.ok, Step.idx]

theorem step_all_nodup : Step.all.Nodup := by decide

theorem count_attempt_le_one (o : NetOutcome) (s : Step) :
    (sendEmailWithTLS o).trace.count (Effect.attempt s) ≤ 1 := by
  rw [← count_attempts, attempts_trace]
  exact List.nodup_iff_count_le_one.mp
    (step_all_nodup.sublist (List.take_sublist _ _)) s

theorem attempt_mem_iff (o : NetOutcome) (s : Step) :
    Effect.attempt s ∈ (sendEmailWithTLS o).trace ↔
      ∀ s2 : Step, s2.idx < s.idx → o.ok s2 = true := by
  rw [← mem_attempts, attempts_trace, mem_take_succeeded]

/-- Once the connection is open and encrypted, the trace starts with the two calls that
made it so. -/
theorem trace_after_startTLS (o : NetOutcome) (hd : o.dial = true) (ht : o.startTLS = true) :
    (sendEmailWithTLS o).trace =
      Effect.attempt Step.dial :: Effect.attempt Step.startTLS ::
        (sendEmailWithTLS o).trace.drop 2 := by
  rcases o with ⟨a, b, c, d, e, f, g, h, i⟩
  simp only at hd ht
  subst hd
  subst ht
  cases c <;> cases d <;> cases e <;> cases f <;> cases g <;> rfl

/-- Once the data stream is open, the trace ends with its close and then the close of the
connection. -/
theorem trace_after_data (o : NetOutcome)
    (h : ∀ s2 : Step, s2.idx < Step.write.idx → o.ok s2 = true) :
    (sendEmailWithTLS o).trace =
      (Step.all.map Effect.attempt) ++
        [Effect.closeWriter o.writerClose, Effect.closeConn o.connClose] := by
  rw [forall_step_iff] at h
  rcases o with ⟨a, b, c, d, e, f, g, h, i⟩
  simp [NetOutcome.ok, Step.idx] at h
  obtain ⟨rfl, rfl, rfl, rfl, rfl, rfl⟩ := h
  cases g <;> rfl

theorem closes_count (o : NetOutcome) :
    (sendEmailWithTLS o).trace.countP Effect.isCloseConn = (if o.dial then 1 else 0) ∧
    (sendEmailWithTLS o).trace.countP Effect.isCloseWriter =
      (if o.dial && o.startTLS && o.auth && o.mail && o.rcpt && o.data then 1 else 0) ∧
    (sendEmailWithTLS o).trace.getLast? =
      (if o.dial then some (Effect.closeConn o.connClose)
        else some (Effect.attempt Step.dial)) := by
  rcases o with ⟨a, b, c, d, e, f, g, h, i⟩
  cases a <;> cases b <;> cases c <;> cases d <;> cases e <;> cases f <;> cases g <;>
    exact ⟨rfl, rfl, rfl⟩

theorem err_none_iff (o : NetOutcome) :
    (sendEmailWithTLS o).err = none ↔ ∀ s : Step, o.ok s = true := by
  rw [sendEmailWithTLS_eq]
  simp only [List.find?_eq_none, Bool.not_eq_true', Bool.not_eq_false]
  constructor
  · intro h s
    exact h s (by cases s <;> decide)
  · intro h s _
    exact h s

/-! ## The claims -/

/-- C9. `emailSent` answers true exactly when the query succeeds and the table holds a row
with this very address and the status `sent`; rows with another status (`failed`,
`invalid`) do not count; when the query fails the answer is false, and the iteration then
goes on to the validity check and, for a valid address, to the transport session. -/
theorem emailSent_spec (queryOk : Bool) (db : Store) (a : String) :
    (emailSent queryOk db a = true ↔
      queryOk = true ∧ ∃ row ∈ db, row.email = a ∧ row.status = "sent") ∧
    ((∀ row ∈ db, row.email = a → row.status = "failed" ∨ row.status = "invalid") →
      emailSent queryOk db a = false) ∧
    (queryOk = false → emailSent queryOk db a = false) ∧
    (∀ (env : Env) (i : Nat), env.queryOk i = false →
      (isValidEmail a = true →
        Event.send a (sendEmailWithTLS (env.net i)) ∈ (processRecipient env i db a).2) ∧
      (isValidEmail a = false →
        Event.insert a "invalid" (env.execOk i) ∈ (processRecipient env i db a).2)) := by
  have key : emailSent queryOk db a = true ↔
      queryOk = true ∧ ∃ row ∈ db, row.email = a ∧ row.status = "sent" := by
    rw [emailSent_eq_true_iff]
    constructor
    · rintro ⟨hq, hm⟩
      exact ⟨hq, _, hm, rfl, rfl⟩
    · rintro ⟨hq, ⟨e, st⟩, hm, he, hst⟩
      simp only at he hst
      subst he
      subst hst
      exact ⟨hq, hm⟩
  refine ⟨key, ?_, ?_, ?_⟩
  · intro hall
    cases hs : emailSent queryOk db a
    · rfl
    · obtain ⟨-, row, hm, he, hst⟩ := key.mp hs
      rcases hall row hm he with h | h <;> rw [hst] at h <;> exact absurd h (by decide)
  · rintro rfl
    rfl
  · intro env i hq
    have hs : emailSent (env.queryOk i) db a = false := by rw [hq]; rfl
    constructor
    · intro hv
      by_cases he : (sendEmailWithTLS (env.net i)).err = none
      · rw [processRecipient_sent env i db a hs hv he]
        simp
      · rw [processRecipient_failed env i db a hs hv he]
        simp
    · intro hv
      rw [processRecipient_invalid env i db a hs hv]
      simp

/-- Witness of C9: a table holding a `failed` row and a `sent` row for the address. -/
theorem emailSent_spec_witness :
    emailSent true [⟨"a@x.com", "failed"⟩, ⟨"a@x.com", "sent"⟩] "a@x.com" = true ∧
    emailSent false [⟨"a@x.com", "failed"⟩, ⟨"a@x.com", "sent"⟩] "a@x.com" = false :=
  ⟨(emailSent_spec true [⟨"a@x.com", "failed"⟩, ⟨"a@x.com", "sent"⟩] "a@x.com").1.mpr
      ⟨rfl, ⟨"a@x.com", "sent"⟩, by decide, rfl, rfl⟩,
    (emailSent_spec false [⟨"a@x.com", "failed"⟩, ⟨"a@x.com", "sent"⟩] "a@x.com").2.2.1 rfl⟩

/-- C1. With the queries succeeding, an address that has a `sent` row when the run starts
is never handed to `sendEmailWithTLS`: each of its occurrences takes the skip path; and
when every recipient has such a row the run makes no transport call at all. -/
theorem sent_record_blocks_transport (env : Env) (hq : ∀ i, env.queryOk i = true)
    (db : Store) (rs : List String) :
    (∀ a, (⟨a, "sent"⟩ : EmailRow) ∈ db →
      (mainLoop env db rs).2.flatten.countP (Event.isSendTo a) = 0 ∧
      ∀ j : Nat, rs[j]? = some a →
        (mainLoop env db rs).2[j]? = some [Event.query a true]) ∧
    ((∀ r ∈ rs, (⟨r, "sent"⟩ : EmailRow) ∈ db) →
      (mainLoop env db rs).2.flatten.countP Event.isSend = 0) := by
  have noSend : ∀ a, (⟨a, "sent"⟩ : EmailRow) ∈ db → ∀ j : Nat, rs[j]? = some a →
      ∀ e ∈ (processRecipient env j (storeAfter env db rs j) a).2, e.isSend = false := by
    intro a hmem j _ e he
    rw [skip_of_sent env hq db rs j a hmem] at he
    simp only [List.mem_singleton] at he
    subst he
    rfl
  refine ⟨fun a hmem => ⟨?_, ?_⟩, ?_⟩
  · apply countP_flatten_eq_zero
    intro evs hevs e he
    obtain ⟨j, r, hr, rfl⟩ := events_mem env db rs evs hevs
    cases hto : e.isSendTo a
    · rfl
    · have hsend := isSend_of_isSendTo a e hto
      obtain ⟨rfl, -, -⟩ := send_mem_processRecipient env j _ r e he hsend
      simp only [Event.isSendTo, beq_iff_eq] at hto
      subst hto
      have := noSend r hmem j hr _ he
      simp [Event.isSend] at this
  · intro j hj
    rw [events_get env db rs j a hj, skip_of_sent env hq db rs j a hmem]
  · intro hall
    apply countP_flatten_eq_zero
    intro evs hevs e he
    obtain ⟨j, r, hr, rfl⟩ := events_mem env db rs evs hevs
    exact noSend r (hall r (List.mem_iff_getElem?.mpr ⟨j, hr⟩)) j hr e he

/-- Witness of C1: a rerun over two recipients that both have a `sent` row. -/
theorem sent_record_blocks_transport_witness :
    (∀ i, (Env.allOk fun _ => 0).queryOk i = true) ∧
    (mainLoop (Env.allOk fun _ => 0) [⟨"a@x.com", "sent"⟩, ⟨"b@x.com", "sent"⟩]
      ["a@x.com", "b@x.com", "a@x.com"]).2.flatten.countP Event.isSend = 0 :=
  ⟨fun _ => rfl,
    (sent_record_blocks_transport (Env.allOk fun _ => 0) (fun _ => rfl)
      [⟨"a@x.com", "sent"⟩, ⟨"b@x.com", "sent"⟩] ["a@x.com", "b@x.com", "a@x.com"]).2
      (by decide)⟩

/-- C10. The table is append-only: every iteration leaves the rows written so far unchanged
and in place, so the initial table is an initial segment of the final one; an iteration
appends at most one row, and, the inserts succeeding, none when the recipient is skipped as
already sent and exactly one (for that recipient) otherwise. -/
theorem store_append_only (env : Env) (db : Store) (rs : List String) :
    storeAfter env db rs 0 = db ∧
    storeAfter env db rs rs.length = (mainLoop env db rs).1 ∧
    (∀ k, storeAfter env db rs k <+: storeAfter env db rs (k + 1)) ∧
    db <+: (mainLoop env db rs).1 ∧
    (∀ k, (storeAfter env db rs (k + 1)).length ≤ (storeAfter env db rs k).length + 1) ∧
    ((∀ i, env.execOk i = true) → ∀ k r, rs[k]? = some r →
      (emailSent (env.queryOk k) (storeAfter env db rs k) r = true →
        storeAfter env db rs (k + 1) = storeAfter env db rs k) ∧
      (emailSent (env.queryOk k) (storeAfter env db rs k) r = false →
        ∃ st, storeAfter env db rs (k + 1) = storeAfter env db rs k ++ [⟨r, st⟩])) := by
  refine ⟨storeAfter_zero env db rs, storeAfter_length env db rs, ?_, ?_, ?_, ?_⟩
  · intro k
    exact storeAfter_mono env db rs k (k + 1) (Nat.le_succ k)
  · have := storeAfter_mono env db rs 0 rs.length (Nat.zero_le _)
    rwa [storeAfter_zero, storeAfter_length] at this
  · intro k
    obtain ⟨l, hl, hlen⟩ := storeAfter_step env db rs k
    rw [hl, List.length_append]
    omega
  · intro hw k r hr
    rw [storeAfter_succ env db rs k r hr]
    constructor
    · intro hs
      rw [processRecipient_skip env k _ r hs]
    · intro hs
      rcases processRecipient_cases env k (storeAfter env db rs k) r with
        ⟨h, _⟩ | ⟨_, _, h⟩ | ⟨_, _, _, h⟩ | ⟨_, _, _, h⟩
      · rw [hs] at h
        exact absurd h (by decide)
      · exact ⟨"invalid", by rw [h, saveEmailStatus_eq, hw k]; rfl⟩
      · exact ⟨"failed", by rw [h, saveEmailStatus_eq, hw k]; rfl⟩
      · exact ⟨"sent", by rw [h, saveEmailStatus_eq, hw k]; rfl⟩

/-- Witness of C10: a run that takes the sent, the invalid and the skip path. -/
theorem store_append_only_witness :
    (∀ i, (Env.allOk fun _ => 0).execOk i = true) ∧
    storeAfter (Env.allOk fun _ => 0) [⟨"z@x.com", "failed"⟩]
        ["a@x.com", "not-an-email", "a@x.com"] 3 =
      storeAfter (Env.allOk fun _ => 0) [⟨"z@x.com", "failed"⟩]
        ["a@x.com", "not-an-email", "a@x.com"] 2 :=
  ⟨fun _ => rfl,
    ((store_append_only (Env.allOk fun _ => 0) [⟨"z@x.com", "failed"⟩]
      ["a@x.com", "not-an-email", "a@x.com"]).2.2.2.2.2 (fun _ => rfl) 2 "a@x.com" rfl).1
      (by decide)⟩

/-- C6. The steps of a session are attempted in program order, each at most once, and a
step is attempted exactly when all the steps before it succeeded: the first failing step is
the last one attempted and its error is the one returned.  In particular nothing that
follows StartTLS (Auth, Mail, Rcpt, Data, Write) is attempted unless StartTLS succeeded, and
then only after it. -/
theorem steps_stop_at_first_failure (o : NetOutcome) :
    attempts (sendEmailWithTLS o).trace = Step.all.take (o.succeeded + 1) ∧
    (sendEmailWithTLS o).err = Step.all.find? (fun s => !o.ok s) ∧
    (∀ s, (sendEmailWithTLS o).trace.count (Effect.attempt s) ≤ 1) ∧
    (∀ s, Effect.attempt s ∈ (sendEmailWithTLS o).trace ↔
      ∀ s2 : Step, s2.idx < s.idx → o.ok s2 = true) ∧
    (∀ s, o.ok s = false → ∀ s2 : Step, s.idx < s2.idx →
      Effect.attempt s2 ∉ (sendEmailWithTLS o).trace) ∧
    (o.startTLS = false →
      Effect.attempt Step.auth ∉ (sendEmailWithTLS o).trace ∧
      Effect.attempt Step.write ∉ (sendEmailWithTLS o).trace) ∧
    (∀ s, Step.startTLS.idx < s.idx → Effect.attempt s ∈ (sendEmailWithTLS o).trace →
      o.startTLS = true ∧
      ∃ post, (sendEmailWithTLS o).trace =
          Effect.attempt Step.dial :: Effect.attempt Step.startTLS :: post ∧
        Effect.attempt s ∈ post) := by
  have later : ∀ s, o.ok s = false → ∀ s2 : Step, s.idx < s2.idx →
      Effect.attempt s2 ∉ (sendEmailWithTLS o).trace := by
    intro s hs s2 hlt hmem
    have := (attempt_mem_iff o s2).mp hmem s hlt
    rw [hs] at this
    exact absurd this (by decide)
  refine ⟨attempts_trace o, ?_, count_attempt_le_one o, attempt_mem_iff o, later, ?_, ?_⟩
  · rw [sendEmailWithTLS_eq]
  · intro h
    exact ⟨later Step.startTLS h Step.auth (by decide),
      later Step.startTLS h Step.write (by decide)⟩
  · intro s hs hmem
    have hall := (attempt_mem_iff o s).mp hmem
    have hd : o.dial = true := hall Step.dial (by simp only [Step.idx] at hs ⊢; omega)
    have ht : o.startTLS = true := hall Step.startTLS hs
    refine ⟨ht, _, trace_after_startTLS o hd ht, ?_⟩
    rw [trace_after_startTLS o hd ht] at hmem
    rcases List.mem_cons.mp hmem with h1 | h1
    · cases s <;> simp [Step.idx] at hs h1
    · rcases List.mem_cons.mp h1 with h2 | h2
      · cases s <;> simp [Step.idx] at hs h2
      · exact h2

/-- Witness of C6: StartTLS fails, so the session stops after two attempts and closes the
connection without having sent the credential. -/
theorem steps_stop_at_first_failure_witness :
    Effect.attempt Step.auth ∉
        (sendEmailWithTLS ⟨true, false, true, true, true, true, true, true, true⟩).trace ∧
    Effect.attempt Step.write ∉
        (sendEmailWithTLS ⟨true, false, true, true, true, true, true, true, true⟩).trace :=
  (steps_stop_at_first_failure ⟨true, false, true, true, true, true, true, true, true⟩).2.2.2.2.2.1
    rfl

/-- C7, at the failing input: all seven steps succeed and the deferred `writer.Close()`
returns an error.  The session returns `nil` exactly when the seven checked steps succeed,
whatever the closes return; so here it returns `nil`, and the loop records `sent` and
sleeps. -/
theorem writer_close_error_is_dropped :
    (∀ o : NetOutcome, (sendEmailWithTLS o).err = none ↔ ∀ s : Step, o.ok s = true) ∧
    (sendEmailWithTLS ⟨true, true, true, true, true, true, true, false, true⟩).err = none ∧
    Effect.closeWriter false ∈
      (sendEmailWithTLS ⟨true, true, true, true, true, true, true, false, true⟩).trace ∧
    mainLoop
        { queryOk := fun _ => true
          execOk := fun _ => true
          net := fun _ => ⟨true, true, true, true, true, true, true, false, true⟩
          intn := fun _ => 0 }
        [] ["a@x.com"] =
      ([⟨"a@x.com", "sent"⟩],
        [[Event.query "a@x.com" true,
          Event.send "a@x.com" ⟨none, [Effect.attempt Step.dial, Effect.attempt Step.startTLS,
            Effect.attempt Step.auth, Effect.attempt Step.mail, Effect.attempt Step.rcpt,
            Effect.attempt Step.data, Effect.attempt Step.write, Effect.closeWriter false,
            Effect.closeConn true]⟩,
          Event.insert "a@x.com" "sent" true, Event.sleep 20000000000]]) :=
  ⟨err_none_iff, by decide, by decide, by decide⟩

/-- C8, as stated, fails when the dial fails: the session returns before `defer
conn.Close()` is reached and closes nothing. -/
theorem dial_failure_closes_nothing :
    (sendEmailWithTLS ⟨false, true, true, true, true, true, true, true, true⟩).trace =
      [Effect.attempt Step.dial] ∧
    (sendEmailWithTLS ⟨false, true, true, true, true, true, true, true, true⟩).trace.countP
      Effect.isCloseConn ≠ 1 := by
  decide

/-- C8, amended. When the dial fails no connection exists and nothing is closed.  On every
exit path after a successful dial, whichever later step fails or none, the connection is
closed exactly once, as the last effect of the session.  The data stream, once opened, is
closed exactly once, immediately before the connection; when it was not opened it is not
closed. -/
theorem close_discipline (o : NetOutcome) :
    (o.dial = false → (sendEmailWithTLS o).trace = [Effect.attempt Step.dial]) ∧
    (o.dial = true →
      (sendEmailWithTLS o).trace.countP Effect.isCloseConn = 1 ∧
      (sendEmailWithTLS o).trace.getLast? = some (Effect.closeConn o.connClose)) ∧
    ((Effect.attempt Step.data ∈ (sendEmailWithTLS o).trace ∧ o.data = true) →
      (sendEmailWithTLS o).trace.countP Effect.isCloseWriter = 1 ∧
      ∃ pre, (sendEmailWithTLS o).trace =
          pre ++ [Effect.closeWriter o.writerClose, Effect.closeConn o.connClose] ∧
        pre.countP Effect.isCloseWriter = 0 ∧ pre.countP Effect.isCloseConn = 0) ∧
    (¬ (Effect.attempt Step.data ∈ (sendEmailWithTLS o).trace ∧ o.data = true) →
      (sendEmailWithTLS o).trace.countP Effect.isCloseWriter = 0) := by
  obtain ⟨hconn, hwriter, hlast⟩ := closes_count o
  have opened : (Effect.attempt Step.data ∈ (sendEmailWithTLS o).trace ∧ o.data = true) ↔
      ∀ s2 : Step, s2.idx < Step.write.idx → o.ok s2 = true := by
    rw [attempt_mem_iff, forall_step_iff, forall_step_iff]
    simp [NetOutcome.ok, Step.idx]
    tauto
  have openedB : (Effect.attempt Step.data ∈ (sendEmailWithTLS o).trace ∧ o.data = true) ↔
      (o.dial && o.startTLS && o.auth && o.mail && o.rcpt && o.data) = true := by
    rw [opened, forall_step_iff]
    simp [NetOutcome.ok, Step.idx]
    tauto
  refine ⟨?_, ?_, ?_, ?_⟩
  · intro hd
    rw [sendEmailWithTLS_eq]
    rcases o with ⟨a, b, c, d, e, f, g, h, i⟩
    simp only at hd
    subst hd
    rfl
  · intro hd
    rw [hconn, hlast, hd]
    exact ⟨rfl, rfl⟩
  · intro h
    refine ⟨by rw [hwriter, openedB.mp h]; rfl, Step.all.map Effect.attempt,
      trace_after_data o (opened.mp h), by decide, by decide⟩
  · intro h
    have hb : (o.dial && o.startTLS && o.auth && o.mail && o.rcpt && o.data) = false := by
      cases hx : (o.dial && o.startTLS && o.auth && o.mail && o.rcpt && o.data)
      · rfl
      · exact absurd (openedB.mpr hx) h
    rw [hwriter, hb]
    rfl

/-- Witness of C8 (amended): the write fails after the data stream was opened. -/
theorem close_discipline_witness :
    (sendEmailWithTLS ⟨true, true, true, true, true, true, false, true, true⟩).trace.countP
        Effect.isCloseConn = 1 ∧
    (sendEmailWithTLS ⟨true, true, true, true, true, true, false, true, true⟩).trace.getLast? =
        some (Effect.closeConn true) :=
  (close_discipline ⟨true, true, true, true, true, true, false, true, true⟩).2.1 rfl

/-- C3. `isValidEmail` accepts exactly the strings `local@domain.tld` of the specification:
a non-empty local part over letters, digits and `. _ % + -`, an `@`, a non-empty domain
over letters, digits, `.` and `-`, a `.` and at least two letters.  Hence a string without
`@`, and a string that does not end in a `.` followed by at least two letters, is
rejected. -/
theorem isValidEmail_spec :
    (∀ email : String, isValidEmail email = true ↔ SpecValidEmail email.toList) ∧
    (∀ email : String, '@' ∉ email.toList → isValidEmail email = false) ∧
    (∀ email : String, ¬ EndsInDotLetters email.toList → isValidEmail email = false) := by
  refine ⟨isValidEmail_iff_spec, ?_, ?_⟩
  · intro email hat
    cases hv : isValidEmail email
    · rfl
    · obtain ⟨l, d, t, hs, -⟩ := (isValidEmail_iff_spec email).mp hv
      exact absurd (by rw [hs]; simp) hat
  · intro email hend
    cases hv : isValidEmail email
    · rfl
    · obtain ⟨l, d, t, hs, -, -, -, -, ht, htc⟩ := (isValidEmail_iff_spec email).mp hv
      exact absurd ⟨l ++ '@' :: d, t, by rw [hs]; simp, ht, htc⟩ hend

/-- Witness of C3: `a@x.com` has the shape, `not-an-email` has no `@`. -/
theorem isValidEmail_spec_witness :
    isValidEmail "a@x.com" = true ∧ isValidEmail "not-an-email" = false :=
  ⟨(isValidEmail_spec.1 "a@x.com").mpr
      ⟨['a'], ['x'], ['c', 'o', 'm'], rfl, by decide, by decide, by decide, by decide,
        by decide, by decide⟩,
    isValidEmail_spec.2.1 "not-an-email" (by decide)⟩

/-- C4. The run sleeps exactly once in each iteration whose session returned `nil`, and
not at all in an iteration that skipped a duplicate, recorded an invalid address or
recorded a failure.  The duration of the sleep of iteration `k` comes from the call of
`rand.Intn(40)` of that same iteration: it is `r + 20` whole seconds with `20 ≤ r + 20 ≤ 59`,
and every number of seconds in that range is slept by some run. -/
theorem pacing_delay (env : Env) (hr : ∀ i, env.intn i < 40) (db : Store)
    (rs : List String) :
    (∀ (k : Nat) (r : String) (evs : List Event), rs[k]? = some r →
      (mainLoop env db rs).2[k]? = some evs →
        delivered evs =
          (!emailSent (env.queryOk k) (storeAfter env db rs k) r && isValidEmail r &&
            (sendEmailWithTLS (env.net k)).err.isNone) ∧
        sleeps evs = (if delivered evs then [delayOf (env.intn k)] else []) ∧
        evs.countP Event.isSleep = (if delivered evs then 1 else 0)) ∧
    (∀ k, delayOf (env.intn k) = ((env.intn k + 20 : Nat) : Int) * second ∧
      20 ≤ env.intn k + 20 ∧ env.intn k + 20 ≤ 59 ∧
      delayOf (env.intn k) < 2 ^ 63) ∧
    (∀ d : Nat, 20 ≤ d → d ≤ 59 →
      ∃ env2 : Env, (∀ i, env2.intn i < 40) ∧
        sleeps (mainLoop env2 [] ["a@x.com"]).2.flatten = [(d : Int) * second]) := by
  refine ⟨?_, ?_, ?_⟩
  · intro k r evs hr2 hevs
    rw [events_get env db rs k r hr2] at hevs
    obtain rfl := Option.some.inj hevs
    exact sleeps_processRecipient env k _ r
  · intro k
    have h := hr k
    refine ⟨delayOf_eq _ h, by omega, by omega, ?_⟩
    rw [delayOf_eq _ h]
    simp only [second]
    push_cast
    omega
  · intro d hlo hhi
    refine ⟨Env.allOk (fun _ => d - 20), fun _ => ?_, ?_⟩
    · show d - 20 < 40
      omega
    · have hd : delayOf (d - 20) = (d : Int) * second := by
        rw [delayOf_eq _ (by omega)]
        have : d - 20 + 20 = d := by omega
        rw [this]
      have hv : isValidEmail "a@x.com" = true := by decide
      simp [mainLoop, loopFrom, processRecipient, emailSent, countSent, hv, Env.allOk,
        sendEmailWithTLS, Frame.run, Frame.defer, Frame.exit, sleeps, hd]

/-- Witness of C4: one successful send with `rand.Intn(40) = 7` sleeps 27 seconds. -/
theorem pacing_delay_witness :
    (∀ i, (Env.allOk fun _ => 7).intn i < 40) ∧
    delayOf ((Env.allOk fun _ => 7).intn 0) = ((7 + 20 : Nat) : Int) * second :=
  ⟨fun _ => (by decide : 7 < 40),
    ((pacing_delay (Env.allOk fun _ => 7) (fun _ => (by decide : 7 < 40)) []
      ["a@x.com"]).2.1 0).1⟩

/-- C5, as stated, fails when the insert fails too: the dial fails for `b@x.com`, the
`INSERT` of the `failed` row fails, and the table is left without any row. -/
theorem failed_insert_leaves_no_record :
    mainLoop
        { queryOk := fun _ => true
          execOk := fun _ => false
          net := fun _ => ⟨false, true, true, true, true, true, true, true, true⟩
          intn := fun _ => 0 }
        [] ["b@x.com"] =
      ([], [[Event.query "b@x.com" true,
             Event.send "b@x.com" ⟨some Step.dial, [Effect.attempt Step.dial]⟩,
             Event.insert "b@x.com" "failed" false]]) := by
  decide

/-- C5, amended. Whatever the outcomes of queries, inserts and sessions, the loop runs one
iteration per recipient, each starting with the query for its recipient: nothing aborts the
run.  For a recipient that has no `sent` row, passes `isValidEmail` and whose session
returns an error, the iteration makes exactly one insert, of the row (recipient,
`failed`), which lands in the table when the insert succeeds and not when it fails, and
does not sleep; the remaining recipients are then processed exactly as they would be from
the table without that row: same events, same rows appended. -/
theorem failed_send_continues (env : Env) (db : Store) :
    (∀ rs : List String, (mainLoop env db rs).2.length = rs.length ∧
      ∀ (j : Nat) (r : String), rs[j]? = some r →
        ∃ tail, (mainLoop env db rs).2[j]? = some (Event.query r (env.queryOk j) :: tail)) ∧
    (∀ (pre : List String) (r : String) (rest : List String),
      (⟨r, "sent"⟩ : EmailRow) ∉ (mainLoop env db pre).1 →
      isValidEmail r = true →
      (sendEmailWithTLS (env.net pre.length)).err ≠ none →
        processRecipient env pre.length (mainLoop env db pre).1 r =
          ((mainLoop env db pre).1 ++
              (if env.execOk pre.length then [⟨r, "failed"⟩] else []),
            [Event.query r (env.queryOk pre.length),
              Event.send r (sendEmailWithTLS (env.net pre.length)),
              Event.insert r "failed" (env.execOk pre.length)]) ∧
        (mainLoop env db (pre ++ r :: rest)).2 =
          (mainLoop env db pre).2 ++
            [Event.query r (env.queryOk pre.length),
              Event.send r (sendEmailWithTLS (env.net pre.length)),
              Event.insert r "failed" (env.execOk pre.length)] ::
            (loopFrom env (pre.length + 1) (mainLoop env db pre).1 rest).2 ∧
        ∃ t : List EmailRow,
          (loopFrom env (pre.length + 1) (mainLoop env db pre).1 rest).1 =
            (mainLoop env db pre).1 ++ t ∧
          (mainLoop env db (pre ++ r :: rest)).1 =
            (mainLoop env db pre).1 ++
              (if env.execOk pre.length then [⟨r, "failed"⟩] else []) ++ t) := by
  refine ⟨fun rs => ⟨loopFrom_length env rs 0 db, ?_⟩, ?_⟩
  · intro j r hr
    rw [events_get env db rs j r hr]
    rcases processRecipient_cases env j (storeAfter env db rs j) r with
      ⟨_, h⟩ | ⟨_, _, h⟩ | ⟨_, _, _, h⟩ | ⟨_, _, _, h⟩ <;> rw [h] <;> exact ⟨_, rfl⟩
  · intro pre r rest hns hv he
    have hq := emailSent_eq_false_of_not_mem (env.queryOk pre.length) _ r hns
    have hstep := processRecipient_failed env pre.length (mainLoop env db pre).1 r hq hv he
    rw [saveEmailStatus_eq] at hstep
    have hequiv : ∀ a, (⟨a, "sent"⟩ : EmailRow) ∈ (mainLoop env db pre).1 ++
          (if env.execOk pre.length then [(⟨r, "failed"⟩ : EmailRow)] else []) ↔
        (⟨a, "sent"⟩ : EmailRow) ∈ (mainLoop env db pre).1 := by
      intro a
      cases env.execOk pre.length <;> simp
    obtain ⟨t, t1, t2, t3⟩ := loopFrom_congr env rest (pre.length + 1) _ _ hequiv
    refine ⟨hstep, ?_, t, t2, ?_⟩
    · simp only [mainLoop, loopFrom_append, Nat.zero_add, loopFrom]
      simp only [mainLoop] at hstep t3
      rw [hstep, t3]
    · simp only [mainLoop, loopFrom_append, Nat.zero_add, loopFrom]
      simp only [mainLoop] at hstep t1
      rw [hstep, t1]

/-- Witness of C5 (amended): the dial fails for `b@x.com`, the row is written, and
`c@x.com` is processed next. -/
theorem failed_send_continues_witness :
    (mainLoop
        { queryOk := fun _ => true
          execOk := fun _ => true
          net := fun i => ⟨decide (i ≠ 0), true, true, true, true, true, true, true, true⟩
          intn := fun _ => 0 }
        [] ([] ++ "b@x.com" :: ["c@x.com"])).2.length = ([] ++ "b@x.com" :: ["c@x.com"]).length ∧
    processRecipient
        { queryOk := fun _ => true
          execOk := fun _ => true
          net := fun i => ⟨decide (i ≠ 0), true, true, true, true, true, true, true, true⟩
          intn := fun _ => 0 }
        0 [] "b@x.com" =
      ([⟨"b@x.com", "failed"⟩],
        [Event.query "b@x.com" true,
          Event.send "b@x.com" ⟨some Step.dial, [Effect.attempt Step.dial]⟩,
          Event.insert "b@x.com" "failed" true]) :=
  ⟨((failed_send_continues _ []).1 _).1,
    ((failed_send_continues
        { queryOk := fun _ => true
          execOk := fun _ => true
          net := fun i => ⟨decide (i ≠ 0), true, true, true, true, true, true, true, true⟩
          intn := fun _ => 0 }
        []).2 [] "b@x.com" ["c@x.com"] (by decide) (by decide) (by decide)).1⟩

/-- C2, as stated, fails for an invalid address that occurs twice: each occurrence writes
its own `invalid` row, so the address gets two.  And an invalid address that the table
already holds as `sent` is skipped and gets none. -/
theorem invalid_address_written_per_occurrence :
    isValidEmail "not-an-email" = false ∧
    (mainLoop (Env.allOk fun _ => 0) [] ["not-an-email", "not-an-email"]).1 =
      [⟨"not-an-email", "invalid"⟩, ⟨"not-an-email", "invalid"⟩] ∧
    (mainLoop (Env.allOk fun _ => 0) [⟨"not-an-email", "sent"⟩] ["not-an-email"]).1 =
      [⟨"not-an-email", "sent"⟩] := by
  decide

/-- C2, amended. With queries and inserts succeeding: once a valid address has been
delivered, every later occurrence of it in the recipient sequence is skipped, with no
transport call, no row written and no sleep; every occurrence of an address that fails
`isValidEmail` and has no `sent` row at the start writes exactly one row (address,
`invalid`), with no transport call and no sleep.  From the empty table the recipients
`a@x.com`, `not-an-email`, `a@x.com` with a succeeding first session leave exactly the two
rows (a@x.com, sent) and (not-an-email, invalid), and one sleep. -/
theorem duplicates_and_invalid (env : Env) (hq : ∀ i, env.queryOk i = true)
    (hw : ∀ i, env.execOk i = true) (db : Store) (rs : List String) :
    (∀ (i j : Nat) (a : String), i < j → rs[i]? = some a → rs[j]? = some a →
      isValidEmail a = true → (sendEmailWithTLS (env.net i)).err = none →
        (mainLoop env db rs).2[j]? = some [Event.query a true] ∧
        storeAfter env db rs (j + 1) = storeAfter env db rs j) ∧
    (∀ (j : Nat) (b : String), rs[j]? = some b → isValidEmail b = false →
      (⟨b, "sent"⟩ : EmailRow) ∉ db →
        (mainLoop env db rs).2[j]? =
          some [Event.query b true, Event.insert b "invalid" true] ∧
        storeAfter env db rs (j + 1) = storeAfter env db rs j ++ [⟨b, "invalid"⟩]) ∧
    ((sendEmailWithTLS (env.net 0)).err = none →
      (mainLoop env [] ["a@x.com", "not-an-email", "a@x.com"]).1 =
        [⟨"a@x.com", "sent"⟩, ⟨"not-an-email", "invalid"⟩] ∧
      sleeps (mainLoop env [] ["a@x.com", "not-an-email", "a@x.com"]).2.flatten =
        [delayOf (env.intn 0)]) := by
  refine ⟨?_, ?_, ?_⟩
  · intro i j a hij hi hj hv he
    have hsent : (⟨a, "sent"⟩ : EmailRow) ∈ storeAfter env db rs (i + 1) := by
      rw [storeAfter_succ env db rs i a hi]
      cases hs : emailSent (env.queryOk i) (storeAfter env db rs i) a
      · rw [processRecipient_sent env i _ a hs hv he, saveEmailStatus_eq, hw i]
        simp
      · rw [processRecipient_skip env i _ a hs]
        exact ((emailSent_eq_true_iff _ _ _).mp hs).2
    obtain ⟨t, ht⟩ := storeAfter_mono env db rs (i + 1) j hij
    have hsentj : (⟨a, "sent"⟩ : EmailRow) ∈ storeAfter env db rs j := by
      rw [← ht]
      exact List.mem_append_left t hsent
    have hs : emailSent (env.queryOk j) (storeAfter env db rs j) a = true :=
      (emailSent_eq_true_iff _ _ _).mpr ⟨hq j, hsentj⟩
    rw [events_get env db rs j a hj, storeAfter_succ env db rs j a hj,
      processRecipient_skip env j _ a hs, hq j]
    exact ⟨rfl, rfl⟩
  · intro j b hj hv hns
    have hnot : (⟨b, "sent"⟩ : EmailRow) ∉ storeAfter env db rs j := by
      intro hmem
      rcases sent_origin env db rs j b hmem with h | h
      · exact hns h
      · rw [hv] at h
        exact absurd h (by decide)
    have hs := emailSent_eq_false_of_not_mem (env.queryOk j) _ b hnot
    rw [events_get env db rs j b hj, storeAfter_succ env db rs j b hj,
      processRecipient_invalid env j _ b hs hv, saveEmailStatus_eq, hq j, hw j]
    exact ⟨rfl, rfl⟩
  · intro he
    have hv1 : isValidEmail "a@x.com" = true := by decide
    have hv2 : isValidEmail "not-an-email" = false := by decide
    have s0 : processRecipient env 0 [] "a@x.com" =
        ([⟨"a@x.com", "sent"⟩],
          [Event.query "a@x.com" true, Event.send "a@x.com" (sendEmailWithTLS (env.net 0)),
            Event.insert "a@x.com" "sent" true, Event.sleep (delayOf (env.intn 0))]) := by
      rw [processRecipient_sent env 0 [] _ (emailSent_eq_false_of_not_mem _ _ _ (by simp))
        hv1 he, saveEmailStatus_eq, hq 0, hw 0]
      rfl
    have s1 : processRecipient env 1 [⟨"a@x.com", "sent"⟩] "not-an-email" =
        ([⟨"a@x.com", "sent"⟩, ⟨"not-an-email", "invalid"⟩],
          [Event.query "not-an-email" true, Event.insert "not-an-email" "invalid" true]) := by
      rw [processRecipient_invalid env 1 _ _
        (emailSent_eq_false_of_not_mem _ _ _ (by decide)) hv2, saveEmailStatus_eq, hq 1, hw 1]
      rfl
    have s2 : processRecipient env 2 [⟨"a@x.com", "sent"⟩, ⟨"not-an-email", "invalid"⟩]
        "a@x.com" =
        ([⟨"a@x.com", "sent"⟩, ⟨"not-an-email", "invalid"⟩], [Event.query "a@x.com" true]) := by
      rw [processRecipient_skip env 2 _ _
        ((emailSent_eq_true_iff _ _ _).mpr ⟨hq 2, by decide⟩), hq 2]
    simp [mainLoop, loopFrom, s0, s1, s2, sleeps]

/-- Witness of C2 (amended): the scenario of the specification, every query, insert and
session succeeding. -/
theorem duplicates_and_invalid_witness :
    (∀ i, (Env.allOk fun _ => 7).queryOk i = true) ∧
    (∀ i, (Env.allOk fun _ => 7).execOk i = true) ∧
    (mainLoop (Env.allOk fun _ => 7) [] ["a@x.com", "not-an-email", "a@x.com"]).1 =
      [⟨"a@x.com", "sent"⟩, ⟨"not-an-email", "invalid"⟩] ∧
    sleeps (mainLoop (Env.allOk fun _ => 7) [] ["a@x.com", "not-an-email", "a@x.com"]).2.flatten =
      [delayOf ((Env.allOk fun _ => 7).intn 0)] :=
  ⟨fun _ => rfl, fun _ => rfl,
    (duplicates_and_invalid (Env.allOk fun _ => 7) (fun _ => rfl) (fun _ => rfl) []
      ["a@x.com", "not-an-email", "a@x.com"]).2.2 (by decide)⟩

end Sendmail
